import Mathlib

/-!
# Verification of the DNS name decoder (`src/name.rs`, `src/enums.rs`)

A shallow embedding of the name-compression scanner, the lazy byte
expander, the textual renderer and the RCODE conversion of the
`dns-parser` repository, together with proofs about them.

Conventions of the embedding:

* Byte buffers are `List Nat` with each element a byte value; the
  operations are written exactly as the source computes them
  (`&&&`, `>>>`, big-endian pointer decode `hi * 256 + lo` masked to
  14 bits).
* Rust panics (out-of-bounds slice access, `unwrap` on `None`,
  `unreachable!`) are modelled as `none` of an `Option` result.
* The scanning loop carries explicit fuel; a fuel bound sufficient for
  every input is proved, so running out of fuel is also `none` and is
  likewise proved unreachable.
* `pos - 1` in `scan`'s epilogue is `usize` arithmetic; in a release
  build it wraps, and `(pos - 1) + 2` equals `pos + 1` for every
  representable `pos`, which is how the epilogue is written here.
-/

namespace DnsParser

/-- The decode errors of the crate's `Error` enum that `Name::scan`
can produce. -/
inductive Error where
  | UnexpectedEOF
  | BadPointer
  | LabelIsNotUtf8
  | UnknownLabelFormat
deriving DecidableEq, Repr

/-- Whether `c` is a UTF-8 continuation byte (`0x80..=0xBF`). -/
def contB (c : Nat) : Bool := decide (128 ≤ c ∧ c ≤ 191)

/-- UTF-8 validity of a byte list, as decided by Rust's
`std::str::from_utf8`: rejects overlong forms, surrogates and values
above U+10FFFF. -/
def utf8Valid : List Nat → Bool
  | [] => true
  | b :: rest =>
    if b < 128 then utf8Valid rest
    else if 194 ≤ b ∧ b ≤ 223 then
      match rest with
      | c :: r => contB c && utf8Valid r
      | [] => false
    else if b = 224 then
      match rest with
      | c :: d :: r => decide (160 ≤ c ∧ c ≤ 191) && contB d && utf8Valid r
      | _ => false
    else if 225 ≤ b ∧ b ≤ 236 then
      match rest with
      | c :: d :: r => contB c && contB d && utf8Valid r
      | _ => false
    else if b = 237 then
      match rest with
      | c :: d :: r => decide (128 ≤ c ∧ c ≤ 159) && contB d && utf8Valid r
      | _ => false
    else if 238 ≤ b ∧ b ≤ 239 then
      match rest with
      | c :: d :: r => contB c && contB d && utf8Valid r
      | _ => false
    else if b = 240 then
      match rest with
      | c :: d :: e :: r => decide (144 ≤ c ∧ c ≤ 191) && contB d && contB e && utf8Valid r
      | _ => false
    else if 241 ≤ b ∧ b ≤ 243 then
      match rest with
      | c :: d :: e :: r => contB c && contB d && contB e && utf8Valid r
      | _ => false
    else if b = 244 then
      match rest with
      | c :: d :: e :: r => decide (128 ≤ c ∧ c ≤ 143) && contB d && contB e && utf8Valid r
      | _ => false
    else false

/-- The DNS name as stored in the original packet: `labels` is the
name's own window of the `data` slice handed to `scan`, `original` is
the whole packet buffer (`struct Name` in `name.rs`). -/
structure Name where
  labels : List Nat
  original : List Nat
deriving DecidableEq, Repr

/-- The outcome of one iteration of the `while byte != 0` loop of
`Name::scan`: either the loop stops with a result (`done`: normal exit
carries the final `(return_pos, pos)` pair, error exits carry the
error), or it continues with a new state (`next`). -/
inductive ScanStep where
  | done (r : Except Error (Option Nat × Nat))
  | next (parse : List Nat) (rp : Option Nat) (pos largest : Nat)

/-- One iteration of the loop of `Name::scan`.  State: the current
window `parse` (Rust's `parse_data`), `rp` (Rust's `return_pos`), the
cursor `pos` and the strictly-decreasing pointer bound `largest`
(Rust's `largest_pos`). -/
def scanStep (original parse : List Nat) (rp : Option Nat) (pos largest : Nat) : ScanStep :=
  let byte := parse.getD pos 0
  if byte = 0 then ScanStep.done (Except.ok (rp, pos))
  else if parse.length ≤ pos then ScanStep.done (Except.error Error.UnexpectedEOF)
  else if byte &&& 192 = 192 then
    if parse.length < pos + 2 then ScanStep.done (Except.error Error.UnexpectedEOF)
    else
      let off := (byte * 256 + parse.getD (pos + 1) 0) &&& 16383
      if original.length ≤ off then ScanStep.done (Except.error Error.UnexpectedEOF)
      else if largest ≤ off then ScanStep.done (Except.error Error.BadPointer)
      else ScanStep.next (original.drop off) (some (rp.getD pos)) 0 off
  else if byte &&& 192 = 0 then
    let en := pos + byte + 1
    if parse.length < en then ScanStep.done (Except.error Error.UnexpectedEOF)
    else if utf8Valid ((parse.drop (pos + 1)).take byte) = false then
      ScanStep.done (Except.error Error.LabelIsNotUtf8)
    else if parse.length ≤ en then ScanStep.done (Except.error Error.UnexpectedEOF)
    else ScanStep.next parse rp en largest
  else ScanStep.done (Except.error Error.UnknownLabelFormat)

/-- The loop of `Name::scan`, one fuel unit per iteration; `none` is
fuel exhaustion. -/
def scanRaw (original : List Nat) :
    Nat → List Nat → Option Nat → Nat → Nat → Option (Except Error (Option Nat × Nat))
  | 0, _, _, _, _ => none
  | fuel + 1, parse, rp, pos, largest =>
    match scanStep original parse rp pos largest with
    | ScanStep.done r => some r
    | ScanStep.next parse' rp' pos' largest' => scanRaw original fuel parse' rp' pos' largest'

/-- Fuel that always suffices for `scanRaw` (proved below): one more
than the square of the larger buffer length. -/
def scanFuel (data original : List Nat) : Nat :=
  (max data.length original.length + 1) * (max data.length original.length + 1)

/-- Reachability between loop states of `Name::scan`: the
reflexive-transitive closure of single loop iterations (`scanStep`
returning `next`).  `ScanReaches original p rp pos l q rq qpos ql`
says the loop, started at window `p` with `return_pos` `rp`, cursor
`pos` and bound `l`, eventually reaches the state
`(q, rq, qpos, ql)`. -/
inductive ScanReaches (original : List Nat) :
    List Nat → Option Nat → Nat → Nat → List Nat → Option Nat → Nat → Nat → Prop where
  | refl (p : List Nat) (rp : Option Nat) (pos l : Nat) :
      ScanReaches original p rp pos l p rp pos l
  | step {p : List Nat} {rp : Option Nat} {pos l : Nat} {p1 : List Nat}
      {rp1 : Option Nat} {pos1 l1 : Nat} {q : List Nat} {rq : Option Nat}
      {qpos ql : Nat} :
      scanStep original p rp pos l = ScanStep.next p1 rp1 pos1 l1 →
      ScanReaches original p1 rp1 pos1 l1 q rq qpos ql →
      ScanReaches original p rp pos l q rq qpos ql

/-- The index one past the end of the `labels` window computed in
`scan`'s epilogue: `return_pos + 2` after a pointer, else
`(pos - 1) + 2 = pos + 1` (wrapping `usize` arithmetic). -/
def endIdx (rp : Option Nat) (pos : Nat) : Nat :=
  match rp with
  | some r => r + 2
  | none => pos + 1

/-- `Name::scan`.  `none` models a Rust panic (final slice
`data[..return_pos+2]` out of bounds) or a diverging loop; both are
proved unreachable. -/
def Name.scan (data original : List Nat) : Option (Except Error Name) :=
  if data.length = 0 then some (Except.error Error.UnexpectedEOF)
  else
    match scanRaw original (scanFuel data original) data none 0 original.length with
    | none => none
    | some (Except.error e) => some (Except.error e)
    | some (Except.ok (rp, pos)) =>
      let e := endIdx rp pos
      if e ≤ data.length then some (Except.ok ⟨data.take e, original⟩) else none

/-- `Name::byte_len`: length of the serialized name's own window. -/
def Name.byte_len (n : Name) : Nat := n.labels.length

/-- The state of the lazy byte iterator (`struct NameBytes`): the
packet buffer, the bytes after the current label, and the not yet
yielded bytes of the current label (the `Peekable<Iter<u8>>`). -/
structure NameBytes where
  original : List Nat
  remaining_labels : List Nat
  current_label : List Nat
deriving DecidableEq, Repr

/-- `Name::bytes`: build the iterator state.  The `slice.get(..)`
calls followed by `unwrap_or_else(panic!)` are modelled by returning
`none` when the requested range is out of bounds. -/
def Name.bytes (n : Name) : Option NameBytes :=
  if 2 ≤ n.labels.length ∧ n.labels.getD 0 0 >>> 6 = 3 then
    let ptr := (n.labels.getD 0 0 * 256 + n.labels.getD 1 0) &&& 16383
    match n.original.get? ptr with
    | none => none
    | some len =>
      if ptr + 1 + len ≤ n.original.length then
        some ⟨n.original, n.original.drop (ptr + 1 + len), (n.original.drop (ptr + 1)).take len⟩
      else none
  else if n.labels.length ≠ 0 then
    let len := n.labels.getD 0 0
    if 1 + len ≤ n.labels.length then
      some ⟨n.original, n.labels.drop (1 + len), (n.labels.drop 1).take len⟩
    else none
  else some ⟨n.original, n.labels, []⟩

/-- `<NameBytes as Iterator>::next`.  Outer `none` models a panic
inside the nested `Name::bytes` call; `some (none, s)` is the
iterator returning `None`; `some (some b, s)` yields byte `b` with
successor state `s`. -/
def NameBytes.next (s : NameBytes) : Option (Option Nat × NameBytes) :=
  match s.current_label with
  | x :: rest => some (some x, ⟨s.original, s.remaining_labels, rest⟩)
  | [] =>
    if s.remaining_labels.head? = some 0 then some (none, s)
    else
      match Name.bytes ⟨s.remaining_labels, s.original⟩ with
      | none => none
      | some s' =>
        if s'.current_label = [] then some (none, s')
        else some (some 46, s')

/-- Drive the iterator to completion, collecting the yielded bytes;
one fuel unit per `next` call, `none` on panic or fuel exhaustion. -/
def driveGo : Nat → NameBytes → Option (List Nat)
  | 0, _ => none
  | fuel + 1, s =>
    match NameBytes.next s with
    | none => none
    | some (none, _) => some []
    | some (some x, s') =>
      match driveGo fuel s' with
      | none => none
      | some l => some (x :: l)

/-- The fully driven byte sequence of `Name::bytes`. -/
def bytesFull (n : Name) : Option (List Nat) :=
  match Name.bytes n with
  | none => none
  | some s => driveGo (3 * n.labels.length + 2 * n.original.length + 4) s

/-- The loop of `impl fmt::Display for Name`, producing the written
bytes; `none` models the unchecked `data[pos]` / `data[pos..pos+2]`
indexing, the `unwrap`s on the inner re-scan and on `from_utf8`, the
`unreachable!` arm, or fuel exhaustion. -/
def displayGo (original : List Nat) : Nat → List Nat → Nat → Option (List Nat)
  | 0, _, _ => none
  | fuel + 1, data, pos =>
    match data.get? pos with
    | none => none
    | some byte =>
      if byte = 0 then some []
      else if byte &&& 192 = 192 then
        match data.get? (pos + 1) with
        | none => none
        | some b1 =>
          let off := (byte * 256 + b1) &&& 16383
          match Name.scan (original.drop off) original with
          | some (Except.ok n2) =>
            match displayGo original fuel n2.labels 0 with
            | none => none
            | some s => some ((if pos ≠ 0 then [46] else []) ++ s)
          | _ => none
      else if byte &&& 192 = 0 then
        let en := pos + byte + 1
        if en ≤ data.length then
          if utf8Valid ((data.drop (pos + 1)).take byte) then
            match displayGo original fuel data en with
            | none => none
            | some s => some ((if pos ≠ 0 then [46] else []) ++ (data.drop (pos + 1)).take byte ++ s)
          else none
        else none
      else none

/-- The bytes written by the `Display` implementation for `Name`. -/
def displayB (n : Name) : Option (List Nat) :=
  displayGo n.original (n.original.length + n.labels.length + 2) n.labels 0

/-- Interpret a list of ASCII bytes as a string (the rendering of the
concrete test names is pure ASCII). -/
def toAscii (bs : List Nat) : String := String.mk (bs.map Char.ofNat)

/-- The textual rendering of a `Name` as a string. -/
def displayStr (n : Name) : Option String := (displayB n).map toAscii

/-- The `ResponseCode` enum of `enums.rs`. -/
inductive ResponseCode where
  | NoError
  | FormatError
  | ServerFailure
  | NameError
  | NotImplemented
  | Refused
  | Reserved (code : Nat)
deriving DecidableEq, Repr

/-- `impl From<u8> for ResponseCode`: the `match` maps `0..=5` to the
named variants, `6..=15` to `Reserved`, and panics (`none`) on
everything else. -/
def responseCodeOfU8 (code : Nat) : Option ResponseCode :=
  if code = 0 then some ResponseCode.NoError
  else if code = 1 then some ResponseCode.FormatError
  else if code = 2 then some ResponseCode.ServerFailure
  else if code = 3 then some ResponseCode.NameError
  else if code = 4 then some ResponseCode.NotImplemented
  else if code = 5 then some ResponseCode.Refused
  else if 6 ≤ code ∧ code ≤ 15 then some (ResponseCode.Reserved code)
  else none

/-- `impl From<ResponseCode> for u8`. -/
def u8OfResponseCode : ResponseCode → Nat
  | ResponseCode.NoError => 0
  | ResponseCode.FormatError => 1
  | ResponseCode.ServerFailure => 2
  | ResponseCode.NameError => 3
  | ResponseCode.NotImplemented => 4
  | ResponseCode.Refused => 5
  | ResponseCode.Reserved code => code

/-- A `labels` window that is a plain pointer-free name: a sequence
of ordinary labels (length byte below 64, payload present and valid
UTF-8) ending in exactly the terminating zero byte. -/
def plainValid : List Nat → Bool
  | [] => false
  | b :: rest =>
    if b = 0 then rest = ([] : List Nat)
    else if b &&& 192 = 0 then
      decide (b ≤ rest.length) && utf8Valid (rest.take b) && plainValid (rest.drop b)
    else false
termination_by l => l.length
decreasing_by simp_all [List.length_drop]; omega

/-- The expansion of the labels after the first one: a separator and
the label's bytes per remaining label. -/
def joinTail : List Nat → List Nat
  | [] => []
  | b :: rest =>
    if b = 0 then []
    else 46 :: (rest.take b ++ joinTail (rest.drop b))
termination_by l => l.length
decreasing_by simp_all [List.length_drop]; omega

/-- The test buffer `\x02xx\x00\x02yy\xc0\x00\x02zz\xc0\x04` of the
`nested_names` test. -/
def nestedBuf : List Nat := [2, 120, 120, 0, 2, 121, 121, 192, 0, 2, 122, 122, 192, 4]

/-- A packet in which the name at offset 5 is a pointer to offset 3,
where a second pointer (to the name `a` at offset 0) begins. -/
def ptrToPtrBuf : List Nat := [1, 97, 0, 192, 0, 192, 3]

end DnsParser

namespace DnsParser

/-- Characterization of a continuing loop iteration: either a pointer
hop (`largest` strictly decreases, the window becomes a tail of
`original`, the cursor resets, `return_pos` is filled in) or a label
step (same window, cursor advances but stays in bounds). -/
theorem scanStep_next_cases {original parse : List Nat} {rp : Option Nat}
    {pos largest : Nat} {p' : List Nat} {rp' : Option Nat} {pos' l' : Nat}
    (h : scanStep original parse rp pos largest = ScanStep.next p' rp' pos' l') :
    (p' = original.drop l' ∧ rp' = some (rp.getD pos) ∧ pos' = 0 ∧
      l' < largest ∧ l' < original.length ∧ pos + 2 ≤ parse.length) ∨
    (p' = parse ∧ rp' = rp ∧ l' = largest ∧ pos < pos' ∧ pos' < parse.length) := by
  simp only [scanStep] at h
  repeat' split at h
  any_goals exact ScanStep.noConfusion h
  · injection h with h1 h2 h3 h4
    subst h1; subst h2; subst h3; subst h4
    left
    refine ⟨rfl, rfl, rfl, by omega, by omega, by omega⟩
  · injection h with h1 h2 h3 h4
    subst h1; subst h2; subst h3; subst h4
    right
    refine ⟨rfl, rfl, rfl, by omega, by omega⟩

/-- Characterization of a normal loop exit: the byte at the cursor is
zero and the result is the current `(return_pos, pos)` pair. -/
theorem scanStep_done_ok {original parse : List Nat} {rp : Option Nat}
    {pos largest : Nat} {st : Option Nat × Nat}
    (h : scanStep original parse rp pos largest = ScanStep.done (Except.ok st)) :
    parse.getD pos 0 = 0 ∧ st = (rp, pos) := by
  simp only [scanStep] at h
  repeat' split at h
  any_goals exact ScanStep.noConfusion h
  · rename_i hbyte
    injection h with h1
    injection h1 with h2
    exact ⟨hbyte, h2.symm⟩
  all_goals (injection h with h1; exact Except.noConfusion h1)

/-- `scanRaw` is monotone in fuel: once it returns a result, more
fuel returns the same result. -/
theorem scanRaw_mono (original : List Nat) :
    ∀ fuel fuel' parse rp pos largest r, fuel ≤ fuel' →
      scanRaw original fuel parse rp pos largest = some r →
      scanRaw original fuel' parse rp pos largest = some r := by
  intro fuel
  induction fuel with
  | zero =>
    intro fuel' parse rp pos largest r _ h
    exact absurd h (by simp [scanRaw])
  | succ n ih =>
    intro fuel' parse rp pos largest r hle h
    obtain ⟨m, rfl⟩ : ∃ m, fuel' = m + 1 := ⟨fuel' - 1, by omega⟩
    rw [scanRaw] at h ⊢
    cases hstep : scanStep original parse rp pos largest with
    | done r' => rw [hstep] at h; exact h
    | next p' rp' pos' l' =>
      rw [hstep] at h
      exact ih m p' rp' pos' l' r (by omega) h

/-- A result of the loop run from a reachable state is a result of
the loop run from the earlier state, with enough fuel. -/
theorem scanRaw_of_reaches (original : List Nat) :
    ∀ {p : List Nat} {rp : Option Nat} {pos l : Nat} {q : List Nat} {rq : Option Nat}
      {qpos ql : Nat},
      ScanReaches original p rp pos l q rq qpos ql →
      ∀ r fuel, scanRaw original fuel q rq qpos ql = some r →
        ∃ fuel2, scanRaw original fuel2 p rp pos l = some r := by
  intro p rp pos l q rq qpos ql h
  induction h with
  | refl p rp pos l => intro r fuel hr; exact ⟨fuel, hr⟩
  | step hstep _ ih =>
    intro r fuel hr
    obtain ⟨f2, hf2⟩ := ih r fuel hr
    refine ⟨f2 + 1, ?_⟩
    rw [scanRaw, hstep]
    exact hf2

/-- Fuel sufficiency: with `largest * (M + 1) + window + 1` fuel the
loop cannot run out, where `M` bounds the window lengths.  This is
the termination argument: every pointer hop strictly decreases
`largest` and between hops the cursor strictly advances inside a
fixed window. -/
theorem scanRaw_enough (original : List Nat) (M : Nat) (hO : original.length ≤ M) :
    ∀ fuel parse rp pos largest, parse.length ≤ M →
      largest * (M + 1) + (parse.length - pos) + 1 ≤ fuel →
      scanRaw original fuel parse rp pos largest ≠ none := by
  intro fuel
  induction fuel with
  | zero => intro parse rp pos largest _ hf; omega
  | succ n ih =>
    intro parse rp pos largest hp hf
    rw [scanRaw]
    cases hstep : scanStep original parse rp pos largest with
    | done r => simp
    | next p' rp' pos' l' =>
      rcases scanStep_next_cases hstep with
        ⟨hp', _, hpos', hlt, hltO, _⟩ | ⟨hp', _, hl', hposlt, hposlen⟩
      · apply ih
        · rw [hp']; simp only [List.length_drop]; omega
        · have h1 : (l' + 1) * (M + 1) ≤ largest * (M + 1) :=
            Nat.mul_le_mul_right _ (by omega)
          have h2 : (l' + 1) * (M + 1) = l' * (M + 1) + (M + 1) := by ring
          have h3 : p'.length = original.length - l' := by
            rw [hp']; simp only [List.length_drop]
          omega
      · apply ih
        · rw [hp']; exact hp
        · subst hl'; rw [hp']; omega

/-- Invariants of the loop needed for the epilogue: on a normal exit
the computed end index of the `labels` window is between 1 and
`data.length`, so the final slice `data[..end]` is in bounds and
non-empty. -/
theorem scanRaw_ok_bounds (original data : List Nat) :
    ∀ fuel parse rp pos largest st,
      pos < parse.length →
      (rp = none → parse = data) →
      (∀ r, rp = some r → r + 2 ≤ data.length) →
      scanRaw original fuel parse rp pos largest = some (Except.ok st) →
      1 ≤ endIdx st.1 st.2 ∧ endIdx st.1 st.2 ≤ data.length := by
  intro fuel
  induction fuel with
  | zero =>
    intro parse rp pos largest st _ _ _ h
    exact absurd h (by simp [scanRaw])
  | succ n ih =>
    intro parse rp pos largest st hpos hnone hsome h
    rw [scanRaw] at h
    cases hstep : scanStep original parse rp pos largest with
    | done r =>
      rw [hstep] at h
      injection h with h1
      subst h1
      obtain ⟨_, hst⟩ := scanStep_done_ok hstep
      subst hst
      cases hrp : rp with
      | none =>
        have := hnone hrp
        subst this
        simp [endIdx]
        omega
      | some r0 =>
        have := hsome r0 hrp
        simp [endIdx]
        omega
    | next p' rp' pos' l' =>
      rw [hstep] at h
      rcases scanStep_next_cases hstep with
        ⟨hp', hrp', hpos', hlt, hltO, hpp⟩ | ⟨hp', hrp', hl', hposlt, hposlen⟩
      · apply ih p' rp' pos' l' st _ _ _ h
        · rw [hp', hpos']; simp only [List.length_drop]; omega
        · intro hc; rw [hrp'] at hc; exact Option.noConfusion hc
        · intro r hr
          rw [hrp'] at hr
          injection hr with hr
          cases hrp : rp with
          | none =>
            have hpd := hnone hrp
            rw [hrp] at hr
            simp [Option.getD] at hr
            subst hr; rw [← hpd]; omega
          | some r0 =>
            rw [hrp] at hr
            simp [Option.getD] at hr
            subst hr
            exact hsome r0 hrp
      · rw [hp', hrp'] at h
        exact ih parse rp pos' l' st hposlen hnone hsome h

/-- Reading inside the truncated window agrees with reading the full
buffer. -/
theorem getD_take_drop (b : List Nat) (k d i : Nat) (h : d + i < (b.take k).length) :
    ((b.take k).drop d).getD i 0 = (b.drop d).getD i 0 := by
  have hk : d + i < k := by rw [List.length_take] at h; omega
  rw [List.getD_eq_getElem?_getD, List.getD_eq_getElem?_getD,
    List.getElem?_drop, List.getElem?_drop, List.getElem?_take_of_lt hk]

/-- A slice that fits inside the truncated window agrees with the
same slice of the full buffer. -/
theorem slice_take_drop (b : List Nat) (k d s t : Nat) (h : d + s + t ≤ (b.take k).length) :
    (((b.take k).drop d).drop s).take t = ((b.drop d).drop s).take t := by
  rw [List.drop_drop, List.drop_drop, List.drop_take, List.take_take]
  rw [List.length_take] at h
  congr 1
  omega

/-- `scanStep` at the terminator byte. -/
theorem scanStep_eq_exit {original parse : List Nat} {rp : Option Nat} {pos largest : Nat}
    (h0 : parse.getD pos 0 = 0) :
    scanStep original parse rp pos largest = ScanStep.done (Except.ok (rp, pos)) := by
  simp only [scanStep]
  rw [if_pos h0]

/-- `scanStep` at a pointer byte with fewer than two bytes left. -/
theorem scanStep_eq_ptr_eof1 {original parse : List Nat} {rp : Option Nat} {pos largest : Nat}
    (h0 : parse.getD pos 0 ≠ 0) (hpos : pos < parse.length)
    (hptr : parse.getD pos 0 &&& 192 = 192) (hlen : parse.length < pos + 2) :
    scanStep original parse rp pos largest = ScanStep.done (Except.error Error.UnexpectedEOF) := by
  simp only [scanStep]
  rw [if_neg h0, if_neg (by omega), if_pos hptr, if_pos hlen]

/-- `scanStep` at a pointer whose offset is at or beyond the end of
`original`. -/
theorem scanStep_eq_ptr_eof2 {original parse : List Nat} {rp : Option Nat} {pos largest : Nat}
    (h0 : parse.getD pos 0 ≠ 0) (hpos : pos < parse.length)
    (hptr : parse.getD pos 0 &&& 192 = 192) (hlen : pos + 2 ≤ parse.length)
    (hoff : original.length ≤ (parse.getD pos 0 * 256 + parse.getD (pos + 1) 0) &&& 16383) :
    scanStep original parse rp pos largest = ScanStep.done (Except.error Error.UnexpectedEOF) := by
  simp only [scanStep]
  rw [if_neg h0, if_neg (by omega), if_pos hptr, if_neg (by omega), if_pos hoff]

/-- `scanStep` at a pointer whose offset does not strictly
decrease. -/
theorem scanStep_eq_ptr_bad {original parse : List Nat} {rp : Option Nat} {pos largest : Nat}
    (h0 : parse.getD pos 0 ≠ 0) (hpos : pos < parse.length)
    (hptr : parse.getD pos 0 &&& 192 = 192) (hlen : pos + 2 ≤ parse.length)
    (hoff : (parse.getD pos 0 * 256 + parse.getD (pos + 1) 0) &&& 16383 < original.length)
    (hl : largest ≤ (parse.getD pos 0 * 256 + parse.getD (pos + 1) 0) &&& 16383) :
    scanStep original parse rp pos largest = ScanStep.done (Except.error Error.BadPointer) := by
  simp only [scanStep]
  rw [if_neg h0, if_neg (by omega), if_pos hptr, if_neg (by omega), if_neg (by omega), if_pos hl]

/-- `scanStep` at an accepted pointer hop. -/
theorem scanStep_eq_ptr_next {original parse : List Nat} {rp : Option Nat} {pos largest : Nat}
    (h0 : parse.getD pos 0 ≠ 0) (hpos : pos < parse.length)
    (hptr : parse.getD pos 0 &&& 192 = 192) (hlen : pos + 2 ≤ parse.length)
    (hoff : (parse.getD pos 0 * 256 + parse.getD (pos + 1) 0) &&& 16383 < original.length)
    (hl : (parse.getD pos 0 * 256 + parse.getD (pos + 1) 0) &&& 16383 < largest) :
    scanStep original parse rp pos largest =
      ScanStep.next
        (original.drop ((parse.getD pos 0 * 256 + parse.getD (pos + 1) 0) &&& 16383))
        (some (rp.getD pos)) 0
        ((parse.getD pos 0 * 256 + parse.getD (pos + 1) 0) &&& 16383) := by
  simp only [scanStep]
  rw [if_neg h0, if_neg (by omega), if_pos hptr, if_neg (by omega), if_neg (by omega),
    if_neg (by omega)]

/-- `scanStep` at a label whose payload is truncated. -/
theorem scanStep_eq_lab_eof1 {original parse : List Nat} {rp : Option Nat} {pos largest : Nat}
    (h0 : parse.getD pos 0 ≠ 0) (hpos : pos < parse.length)
    (hptr : ¬ parse.getD pos 0 &&& 192 = 192) (hlab : parse.getD pos 0 &&& 192 = 0)
    (hlen : parse.length < pos + parse.getD pos 0 + 1) :
    scanStep original parse rp pos largest = ScanStep.done (Except.error Error.UnexpectedEOF) := by
  simp only [scanStep]
  rw [if_neg h0, if_neg (by omega), if_neg hptr, if_pos hlab, if_pos hlen]

/-- `scanStep` at a label whose payload is not valid UTF-8. -/
theorem scanStep_eq_lab_utf8 {original parse : List Nat} {rp : Option Nat} {pos largest : Nat}
    (h0 : parse.getD pos 0 ≠ 0) (hpos : pos < parse.length)
    (hptr : ¬ parse.getD pos 0 &&& 192 = 192) (hlab : parse.getD pos 0 &&& 192 = 0)
    (hlen : pos + parse.getD pos 0 + 1 ≤ parse.length)
    (hu : utf8Valid ((parse.drop (pos + 1)).take (parse.getD pos 0)) = false) :
    scanStep original parse rp pos largest = ScanStep.done (Except.error Error.LabelIsNotUtf8) := by
  simp only [scanStep]
  rw [if_neg h0, if_neg (by omega), if_neg hptr, if_pos hlab, if_neg (by omega), if_pos hu]

/-- `scanStep` at a valid label with no byte after it. -/
theorem scanStep_eq_lab_eof2 {original parse : List Nat} {rp : Option Nat} {pos largest : Nat}
    (h0 : parse.getD pos 0 ≠ 0) (hpos : pos < parse.length)
    (hptr : ¬ parse.getD pos 0 &&& 192 = 192) (hlab : parse.getD pos 0 &&& 192 = 0)
    (hlen : pos + parse.getD pos 0 + 1 ≤ parse.length)
    (hu : utf8Valid ((parse.drop (pos + 1)).take (parse.getD pos 0)) = true)
    (hlen2 : parse.length ≤ pos + parse.getD pos 0 + 1) :
    scanStep original parse rp pos largest = ScanStep.done (Except.error Error.UnexpectedEOF) := by
  simp only [scanStep]
  rw [if_neg h0, if_neg (by omega), if_neg hptr, if_pos hlab, if_neg (by omega),
    if_neg (by rw [hu]; decide), if_pos hlen2]

/-- `scanStep` consuming a valid label. -/
theorem scanStep_eq_lab_next {original parse : List Nat} {rp : Option Nat} {pos largest : Nat}
    (h0 : parse.getD pos 0 ≠ 0) (hpos : pos < parse.length)
    (hptr : ¬ parse.getD pos 0 &&& 192 = 192) (hlab : parse.getD pos 0 &&& 192 = 0)
    (hu : utf8Valid ((parse.drop (pos + 1)).take (parse.getD pos 0)) = true)
    (hlen2 : pos + parse.getD pos 0 + 1 < parse.length) :
    scanStep original parse rp pos largest =
      ScanStep.next parse rp (pos + parse.getD pos 0 + 1) largest := by
  simp only [scanStep]
  rw [if_neg h0, if_neg (by omega), if_neg hptr, if_pos hlab, if_neg (by omega),
    if_neg (by rw [hu]; decide), if_neg (by omega)]

/-- `scanStep` at a reserved length-byte pattern. -/
theorem scanStep_eq_unknown {original parse : List Nat} {rp : Option Nat} {pos largest : Nat}
    (h0 : parse.getD pos 0 ≠ 0) (hpos : pos < parse.length)
    (hptr : ¬ parse.getD pos 0 &&& 192 = 192) (hlab : ¬ parse.getD pos 0 &&& 192 = 0) :
    scanStep original parse rp pos largest =
      ScanStep.done (Except.error Error.UnknownLabelFormat) := by
  simp only [scanStep]
  rw [if_neg h0, if_neg (by omega), if_neg hptr, if_neg hlab]

/-- Truncation simulation: if scanning the full buffer `b` from a
loop state succeeds, then scanning the prefix `b.take k` from the
corresponding state either succeeds as well or stops at one of the
end-of-buffer checks with `UnexpectedEOF` — never with any other
error.  The two runs stay in lockstep (same window offset `d`, same
cursor, same `return_pos`); the `largest` bounds are either both
still at their initial value (the respective buffer length) or
equal. -/
theorem scanRaw_take_sim (b : List Nat) (k : Nat) :
    ∀ fuel d rp pos lb lp st,
      d + pos < (b.take k).length →
      (lb = b.length ∧ lp = (b.take k).length ∨ lb = lp) →
      scanRaw b fuel (b.drop d) rp pos lb = some (Except.ok st) →
      (∃ st', scanRaw (b.take k) fuel ((b.take k).drop d) rp pos lp = some (Except.ok st')) ∨
      scanRaw (b.take k) fuel ((b.take k).drop d) rp pos lp =
        some (Except.error Error.UnexpectedEOF) := by
  intro fuel
  induction fuel with
  | zero =>
    intro d rp pos lb lp st _ _ hb
    exact absurd hb (by simp [scanRaw])
  | succ n ih =>
    intro d rp pos lb lp st hdp hinv hb
    have hKb : (b.take k).length ≤ b.length := by rw [List.length_take]; omega
    have hbyte : ((b.take k).drop d).getD pos 0 = (b.drop d).getD pos 0 :=
      getD_take_drop b k d pos hdp
    have hlenP : ((b.take k).drop d).length = (b.take k).length - d := List.length_drop _ _
    have hlenB : (b.drop d).length = b.length - d := List.length_drop _ _
    rw [scanRaw] at hb ⊢
    by_cases h0 : (b.drop d).getD pos 0 = 0
    · left
      rw [scanStep_eq_exit (hbyte.trans h0)]
      exact ⟨(rp, pos), rfl⟩
    · have h0P : ((b.take k).drop d).getD pos 0 ≠ 0 := by rw [hbyte]; exact h0
      have hposP : pos < ((b.take k).drop d).length := by omega
      have hposB : pos < (b.drop d).length := by omega
      by_cases hptr : (b.drop d).getD pos 0 &&& 192 = 192
      · have hptrP : ((b.take k).drop d).getD pos 0 &&& 192 = 192 := by rw [hbyte]; exact hptr
        by_cases hl2P : ((b.take k).drop d).length < pos + 2
        · right
          rw [scanStep_eq_ptr_eof1 h0P hposP hptrP hl2P]
        · have hl2B : pos + 2 ≤ (b.drop d).length := by omega
          have hbyte1 : ((b.take k).drop d).getD (pos + 1) 0 = (b.drop d).getD (pos + 1) 0 :=
            getD_take_drop b k d (pos + 1) (by omega)
          by_cases hoffB :
              b.length ≤ ((b.drop d).getD pos 0 * 256 + (b.drop d).getD (pos + 1) 0) &&& 16383
          · rw [scanStep_eq_ptr_eof2 h0 hposB hptr hl2B hoffB] at hb
            exact absurd hb (by simp)
          · by_cases hoffP : (b.take k).length ≤
                ((b.drop d).getD pos 0 * 256 + (b.drop d).getD (pos + 1) 0) &&& 16383
            · right
              rw [scanStep_eq_ptr_eof2 h0P hposP hptrP (by omega)
                (by rw [hbyte, hbyte1]; exact hoffP)]
            · by_cases hlB : lb ≤ ((b.drop d).getD pos 0 * 256 + (b.drop d).getD (pos + 1) 0) &&& 16383
              · rw [scanStep_eq_ptr_bad h0 hposB hptr hl2B (by omega) hlB] at hb
                exact absurd hb (by simp)
              · have hlP : ((b.take k).drop d).getD pos 0 * 256 +
                    ((b.take k).drop d).getD (pos + 1) 0 &&& 16383 < lp := by
                  rw [hbyte, hbyte1]
                  rcases hinv with ⟨h1, h2⟩ | h1 <;> omega
                rw [scanStep_eq_ptr_next h0 hposB hptr hl2B (by omega) (by omega)] at hb
                rw [scanStep_eq_ptr_next h0P hposP hptrP (by omega)
                  (by rw [hbyte, hbyte1]; omega) hlP]
                rw [hbyte, hbyte1]
                exact ih _ _ _ _ _ st (by omega) (Or.inr rfl) hb
      · by_cases hlab : (b.drop d).getD pos 0 &&& 192 = 0
        · have hptrP : ¬ ((b.take k).drop d).getD pos 0 &&& 192 = 192 := by
            rw [hbyte]; exact hptr
          have hlabP : ((b.take k).drop d).getD pos 0 &&& 192 = 0 := by
            rw [hbyte]; exact hlab
          by_cases henP : ((b.take k).drop d).length < pos + ((b.take k).drop d).getD pos 0 + 1
          · right
            rw [scanStep_eq_lab_eof1 h0P hposP hptrP hlabP henP]
          · have henB : pos + (b.drop d).getD pos 0 + 1 ≤ (b.drop d).length := by
              rw [hbyte] at henP; omega
            have hsl : (((b.take k).drop d).drop (pos + 1)).take (((b.take k).drop d).getD pos 0) =
                ((b.drop d).drop (pos + 1)).take ((b.drop d).getD pos 0) := by
              rw [hbyte]
              exact slice_take_drop b k d (pos + 1) ((b.drop d).getD pos 0)
                (by rw [hbyte] at henP; omega)
            by_cases hu : utf8Valid (((b.drop d).drop (pos + 1)).take ((b.drop d).getD pos 0)) = false
            · rw [scanStep_eq_lab_utf8 h0 hposB hptr hlab henB hu] at hb
              exact absurd hb (by simp)
            · have huT : utf8Valid (((b.drop d).drop (pos + 1)).take ((b.drop d).getD pos 0)) = true := by
                cases hx : utf8Valid (((b.drop d).drop (pos + 1)).take ((b.drop d).getD pos 0))
                · exact absurd hx hu
                · rfl
              have huP : utf8Valid ((((b.take k).drop d).drop (pos + 1)).take
                  (((b.take k).drop d).getD pos 0)) = true := by rw [hsl]; exact huT
              by_cases henP2 : ((b.take k).drop d).length ≤
                  pos + ((b.take k).drop d).getD pos 0 + 1
              · right
                rw [scanStep_eq_lab_eof2 h0P hposP hptrP hlabP (by omega) huP henP2]
              · have henB2 : pos + (b.drop d).getD pos 0 + 1 < (b.drop d).length := by
                  rw [hbyte] at henP2; omega

                rw [scanStep_eq_lab_next h0 hposB hptr hlab huT henB2] at hb
                rw [scanStep_eq_lab_next h0P hposP hptrP hlabP huP (by omega)]
                rw [hbyte]
                exact ih d rp (pos + (b.drop d).getD pos 0 + 1) lb lp st
                  (by rw [hbyte] at henP2; omega) hinv hb
        · rw [scanStep_eq_unknown h0 hposB hptr hlab] at hb
          exact absurd hb (by simp)

set_option maxRecDepth 4096 in
/-- A byte with both top bits set satisfies the scanner's pointer
test. -/
theorem land192_of_ge (b : Nat) (h0 : 192 ≤ b) (h1 : b < 256) : b &&& 192 = 192 := by
  have h : ∀ c < 256, 192 ≤ c → c &&& 192 = 192 := by decide
  exact h b h1 h0

/-- A byte without its top two bits cannot pass the expander's
pointer test `labels[0] >> 6 == 0b11`. -/
theorem shift6_ne_three {b : Nat} (h : b &&& 192 = 0) : ¬ b >>> 6 = 3 := by
  intro h3
  rw [Nat.shiftRight_eq_div_pow] at h3
  have hb : 192 ≤ b ∧ b < 256 := by
    have : (2 : Nat) ^ 6 = 64 := by norm_num
    rw [this] at h3
    omega
  rw [land192_of_ge b hb.1 hb.2] at h
  exact absurd h (by decide)

/-- Unfolding `plainValid` at a non-terminator label byte. -/
theorem plainValid_cons {b : Nat} {rest : List Nat} (hb0 : b ≠ 0)
    (h : plainValid (b :: rest) = true) :
    b &&& 192 = 0 ∧ b ≤ rest.length ∧ utf8Valid (rest.take b) = true ∧
      plainValid (rest.drop b) = true := by
  rw [plainValid] at h
  rw [if_neg hb0] at h
  by_cases hland : b &&& 192 = 0
  · rw [if_pos hland] at h
    simp only [Bool.and_eq_true, decide_eq_true_eq] at h
    exact ⟨hland, h.1.1, h.1.2, h.2⟩
  · rw [if_neg hland] at h
    exact absurd h (by decide)

/-- `Name::bytes` on a plain label block: the current label is the
block's payload, the remainder is everything after it. -/
theorem bytes_plain (o : List Nat) (b : Nat) (rest : List Nat) (hb0 : b ≠ 0)
    (hland : b &&& 192 = 0) (hble : b ≤ rest.length) :
    Name.bytes ⟨b :: rest, o⟩ = some ⟨o, rest.drop b, rest.take b⟩ := by
  simp only [Name.bytes, List.getD_cons_zero, List.length_cons]
  rw [if_neg (fun hc => shift6_ne_three hland hc.2)]
  rw [if_pos (by omega), if_pos (by omega)]
  simp [List.drop_succ_cons, Nat.add_comm 1 b]

/-- The driven byte iterator over a plain remainder produces exactly
the separated concatenation of the remaining labels. -/
theorem driveGo_plain (original : List Nat) :
    ∀ fuel L c, (plainValid L = true ∨ L = []) →
      c.length + 2 * L.length + 2 ≤ fuel →
      driveGo fuel ⟨original, L, c⟩ = some (c ++ joinTail L) := by
  intro fuel
  induction fuel with
  | zero => intro L c _ hf; omega
  | succ f ih =>
    intro L c hL hf
    cases c with
    | cons x cr =>
      rw [driveGo]
      simp only [NameBytes.next]
      rw [ih L cr hL (by simp only [List.length_cons] at hf; omega)]
      simp
    | nil =>
      cases L with
      | nil =>
        rw [driveGo]
        simp [NameBytes.next, Name.bytes, joinTail]
      | cons b rest =>
        by_cases hb0 : b = 0
        · subst hb0
          rw [driveGo]
          simp [NameBytes.next, joinTail]
        · have hL' : plainValid (b :: rest) = true := by
            rcases hL with h | h
            · exact h
            · exact absurd h (by simp)
          obtain ⟨hland, hble, hutf8, hplain'⟩ := plainValid_cons hb0 hL'
          have hnext : NameBytes.next ⟨original, b :: rest, []⟩ =
              some (some 46, ⟨original, rest.drop b, rest.take b⟩) := by
            simp only [NameBytes.next]
            rw [if_neg (by simp [hb0])]
            rw [bytes_plain original b rest hb0 hland hble]
            have htake : rest.take b ≠ ([] : List Nat) := by
              intro hc
              have hlen := congrArg List.length hc
              rw [List.length_take, List.length_nil] at hlen
              omega
            simp [htake]
          rw [driveGo]
          simp only [hnext]
          rw [ih (rest.drop b) (rest.take b) (Or.inl hplain')
            (by
              rw [List.length_take, List.length_drop]
              simp only [List.length_cons, List.length_nil] at hf
              omega)]
          rw [joinTail, if_neg hb0]
          simp

/-- One step of the `Display` loop at a terminator byte. -/
theorem displayGo_zero (o data : List Nat) (pos fuel : Nat) (hf : 1 ≤ fuel)
    (h : data.get? pos = some 0) :
    displayGo o fuel data pos = some [] := by
  obtain ⟨f, rfl⟩ : ∃ f, fuel = f + 1 := ⟨fuel - 1, by omega⟩
  rw [displayGo]
  simp only [h]
  simp

/-- The `Display` loop over the tail of a plain `labels` window
(cursor at a label boundary past the first label) writes exactly the
separated concatenation of the remaining labels. -/
theorem displayGo_plain (original data : List Nat) :
    ∀ fuel pos, 1 ≤ pos → pos ≤ data.length → plainValid (data.drop pos) = true →
      data.length - pos + 2 ≤ fuel →
      displayGo original fuel data pos = some (joinTail (data.drop pos)) := by
  intro fuel
  induction fuel with
  | zero => intro pos _ _ _ hf; omega
  | succ f ih =>
    intro pos hpos1 hposlen hpv hf
    cases hdrop : data.drop pos with
    | nil => rw [hdrop] at hpv; exact absurd hpv (by rw [plainValid]; decide)
    | cons b rest =>
      have hlendrop : (data.drop pos).length = data.length - pos := List.length_drop _ _
      have hget : data.get? pos = some b := by
        rw [List.get?_eq_getElem?]
        have h0 : (data.drop pos)[0]? = data[pos + 0]? := List.getElem?_drop _ _ _
        rw [hdrop] at h0
        simpa using h0.symm
      have hd1 : data.drop (pos + 1) = rest := by
        have h1 : List.drop 1 (List.drop pos data) = List.drop (pos + 1) data :=
          List.drop_drop 1 pos data
        rw [← h1, hdrop]
        rfl
      have hrestlen : rest.length = data.length - pos - 1 := by
        rw [hdrop] at hlendrop
        simp only [List.length_cons] at hlendrop
        omega
      rw [displayGo]
      simp only [hget]
      by_cases hb0 : b = 0
      · subst hb0
        simp [joinTail]
      · rw [hdrop] at hpv
        obtain ⟨hland, hble, hutf8, hplain'⟩ := plainValid_cons hb0 hpv
        rw [if_neg hb0, if_neg (by rw [hland]; decide), if_pos hland]
        rw [if_pos (by omega)]
        rw [hd1, if_pos hutf8]
        have hdropen : data.drop (pos + b + 1) = rest.drop b := by
          have h1 : List.drop b (List.drop (pos + 1) data) = List.drop (pos + 1 + b) data :=
            List.drop_drop b (pos + 1) data
          rw [hd1] at h1
          rw [show pos + b + 1 = pos + 1 + b by omega]
          exact h1.symm
        rw [ih (pos + b + 1) (by omega) (by omega) (by rw [hdropen]; exact hplain')
          (by omega)]
        simp [hdropen, joinTail, hb0, show pos ≠ 0 by omega]

/-- The `Display` loop over a whole plain `labels` window writes the
first label without a leading separator, then the separated rest. -/
theorem displayGo_plain0 (original : List Nat) (b : Nat) (rest : List Nat)
    (hb0 : b ≠ 0) (hland : b &&& 192 = 0)
    (hble : b ≤ rest.length) (hutf8 : utf8Valid (rest.take b) = true)
    (hplain' : plainValid (rest.drop b) = true) :
    ∀ fuel, (b :: rest).length + 2 ≤ fuel →
      displayGo original fuel (b :: rest) 0 =
        some (rest.take b ++ joinTail (rest.drop b)) := by
  intro fuel hf
  obtain ⟨f, rfl⟩ : ∃ f, fuel = f + 1 := ⟨fuel - 1, by omega⟩
  rw [displayGo]
  have hget : (b :: rest).get? 0 = some b := rfl
  simp only [hget]
  rw [if_neg hb0, if_neg (by rw [hland]; decide), if_pos hland]
  rw [if_pos (by simp; omega)]
  rw [show List.drop (0 + 1) (b :: rest) = rest from rfl]
  rw [if_pos hutf8]
  have hdropen : List.drop (0 + b + 1) (b :: rest) = rest.drop b := by
    simp
  rw [displayGo_plain original (b :: rest) f (0 + b + 1) (by omega)
    (by simp; omega) (by rw [hdropen]; exact hplain')
    (by simp only [List.length_cons] at hf ⊢; omega)]
  rw [hdropen]
  simp

end DnsParser

namespace DnsParser

/-- C1: `scan` accepts the name `[192,3]` of `ptrToPtrBuf` (its
pointer chain goes through a pointer whose target at offset 3 begins
with another compression pointer), yet `Name::bytes` on the resulting
validated `Name` reaches a panic branch: it reads the pointer target
byte `192` as a label length and the guarded slice
`original.get(4..196)` is out of bounds, so the
`unwrap_or_else(|| panic!(..))` fires. -/
theorem c1_bytes_panics :
    Name.scan [192, 3] ptrToPtrBuf = some (Except.ok ⟨[192, 3], ptrToPtrBuf⟩) ∧
    Name.bytes ⟨[192, 3], ptrToPtrBuf⟩ = none := by
  constructor <;> rfl

/-- C6: the self-pointer buffer `[192,2,192,2]` and the mutual
pointer buffer `[192,2,192,4,192,2]` are both rejected by `scan`
with `BadPointer`. -/
theorem c6_bad_pointers :
    Name.scan [192, 2, 192, 2] [192, 2, 192, 2] =
      some (Except.error Error.BadPointer) ∧
    Name.scan [192, 2, 192, 4, 192, 2] [192, 2, 192, 4, 192, 2] =
      some (Except.error Error.BadPointer) := by
  constructor <;> rfl

/-- C7: on the nested test buffer, `scan` succeeds at offsets 0, 4
and 9 and the textual renderings are `"xx"`, `"yy.xx"` and
`"zz.yy.xx"`. -/
theorem c7_nested_names :
    Name.scan nestedBuf nestedBuf = some (Except.ok ⟨[2, 120, 120, 0], nestedBuf⟩) ∧
    Name.scan (nestedBuf.drop 4) nestedBuf =
      some (Except.ok ⟨[2, 121, 121, 192, 0], nestedBuf⟩) ∧
    Name.scan (nestedBuf.drop 9) nestedBuf =
      some (Except.ok ⟨[2, 122, 122, 192, 4], nestedBuf⟩) ∧
    displayStr ⟨[2, 120, 120, 0], nestedBuf⟩ = some "xx" ∧
    displayStr ⟨[2, 121, 121, 192, 0], nestedBuf⟩ = some "yy.xx" ∧
    displayStr ⟨[2, 122, 122, 192, 4], nestedBuf⟩ = some "zz.yy.xx" := by
  refine ⟨rfl, rfl, rfl, ?_, ?_, ?_⟩ <;> rfl

/-- C8: the root name `[0]` scans successfully, its window is the
single terminator byte (`byte_len = 1`), its driven byte sequence is
empty and it renders as the empty string. -/
theorem c8_root_name :
    Name.scan [0] [0] = some (Except.ok ⟨[0], [0]⟩) ∧
    Name.byte_len ⟨[0], [0]⟩ = 1 ∧
    bytesFull ⟨[0], [0]⟩ = some [] ∧
    displayStr ⟨[0], [0]⟩ = some "" := by
  refine ⟨rfl, rfl, rfl, rfl⟩

/-- C4 counterexample: the buffer `[192,5,0]` decodes a pointer whose
offset 5 is beyond the 3-byte buffer; `scan` returns `UnexpectedEOF`
there, not `BadPointer` as the claim states. -/
theorem c4_counterexample :
    Name.scan [192, 5, 0] [192, 5, 0] = some (Except.error Error.UnexpectedEOF) ∧
    Error.UnexpectedEOF ≠ Error.BadPointer := by
  exact ⟨rfl, by decide⟩

/-- C4 amended: for every input `(data, original)` in which the
scanning loop, run from `scan`'s initial state, reaches a state that
decodes a compression pointer (top bits `11`, both bytes available)
whose 14-bit offset is at or beyond the end of `original`, `scan`
fails with the truncation error `UnexpectedEOF` — not with
`BadPointer` as the claim states: the `off >= original.len()` check
at `name.rs:53-55` precedes the `largest_pos` check and returns
`Error::UnexpectedEOF`. -/
theorem c4_amended (data original : List Nat) (q : List Nat) (rq : Option Nat)
    (qpos ql : Nat)
    (hreach : ScanReaches original data none 0 original.length q rq qpos ql)
    (hb0 : q.getD qpos 0 ≠ 0)
    (hptr : q.getD qpos 0 &&& 192 = 192)
    (hlen : qpos + 2 ≤ q.length)
    (hoff : original.length ≤ (q.getD qpos 0 * 256 + q.getD (qpos + 1) 0) &&& 16383) :
    Name.scan data original = some (Except.error Error.UnexpectedEOF) := by
  by_cases hd : data.length = 0
  · unfold Name.scan
    rw [if_pos hd]
  · have h1 : scanRaw original 1 q rq qpos ql = some (Except.error Error.UnexpectedEOF) := by
      rw [scanRaw, scanStep_eq_ptr_eof2 hb0 (by omega) hptr hlen hoff]
    obtain ⟨f2, hf2⟩ := scanRaw_of_reaches original hreach _ 1 h1
    have hne : scanRaw original (scanFuel data original) data none 0 original.length ≠
        none := by
      apply scanRaw_enough original (max data.length original.length) (le_max_right _ _)
        _ _ _ _ _ (le_max_left _ _)
      have hexp : (max data.length original.length + 1) *
          (max data.length original.length + 1) =
          max data.length original.length * (max data.length original.length + 1) +
            (max data.length original.length + 1) := by ring
      have h2 : original.length * (max data.length original.length + 1) ≤
          max data.length original.length * (max data.length original.length + 1) :=
        Nat.mul_le_mul_right _ (le_max_right _ _)
      have h3 : data.length ≤ max data.length original.length := le_max_left _ _
      simp only [scanFuel]
      omega
    cases hraw : scanRaw original (scanFuel data original) data none 0 original.length with
    | none => exact absurd hraw hne
    | some r0 =>
      have e1 := scanRaw_mono original f2 (max f2 (scanFuel data original)) data none 0
        original.length _ (le_max_left _ _) hf2
      have e2 := scanRaw_mono original (scanFuel data original)
        (max f2 (scanFuel data original)) data none 0 original.length r0
        (le_max_right _ _) hraw
      have hr0 : r0 = Except.error Error.UnexpectedEOF := by
        rw [e1] at e2
        injection e2 with h
        exact h.symm
      unfold Name.scan
      rw [if_neg hd, hraw, hr0]

/-- Witness for `c4_amended`: in `[1,97,192,9]` the pointer follows
the label `a` and its offset 9 is beyond the 4-byte buffer; the loop
reaches the pointer in one label step and `scan` returns
`UnexpectedEOF`. -/
theorem c4_amended_witness :
    Name.scan [1, 97, 192, 9] [1, 97, 192, 9] =
      some (Except.error Error.UnexpectedEOF) :=
  c4_amended [1, 97, 192, 9] [1, 97, 192, 9] [1, 97, 192, 9] none 2 4
    (ScanReaches.step (show scanStep [1, 97, 192, 9] [1, 97, 192, 9] none 0 4 =
        ScanStep.next [1, 97, 192, 9] none 2 4 from rfl)
      (ScanReaches.refl [1, 97, 192, 9] none 2 4))
    (by decide) (by decide) (by decide) (by decide)

/-- C5 counterexample: the RCODE conversion does not keep the value
16 in the `Reserved` catch-all; the `match` in
`impl From<u8> for ResponseCode` only covers `6..=15` and panics on
16 (modelled as `none`). -/
theorem c5_counterexample :
    responseCodeOfU8 16 ≠ some (ResponseCode.Reserved 16) := by
  decide

/-- C5 amended: for every code in `6..=15` the conversion succeeds,
yields `Reserved code`, and converting back gives the code again;
codes `16..=255` panic instead. -/
theorem c5_amended (code : Nat) (h6 : 6 ≤ code) (h15 : code ≤ 15) :
    responseCodeOfU8 code = some (ResponseCode.Reserved code) ∧
    u8OfResponseCode (ResponseCode.Reserved code) = code := by
  interval_cases code <;> exact ⟨rfl, rfl⟩

/-- Witness for `c5_amended` at code 9. -/
theorem c5_amended_witness :
    responseCodeOfU8 9 = some (ResponseCode.Reserved 9) ∧
    u8OfResponseCode (ResponseCode.Reserved 9) = 9 :=
  c5_amended 9 (by decide) (by decide)

/-- C3: on every truncated prefix of a buffer whose scan succeeds,
`scan` either still succeeds (the truncation did not remove any byte
the scan needs) or fails with exactly the truncation error
`UnexpectedEOF`; it cannot panic, diverge, or fail with another error
kind. -/
theorem c3_truncation_eof (b : List Nat) (k : Nat) (n : Name)
    (hok : Name.scan b b = some (Except.ok n))
    (hfail : ¬ ∃ m, Name.scan (b.take k) (b.take k) = some (Except.ok m)) :
    Name.scan (b.take k) (b.take k) = some (Except.error Error.UnexpectedEOF) := by
  unfold Name.scan at hok
  by_cases hb0 : b.length = 0
  · rw [if_pos hb0] at hok; exact absurd hok (by simp)
  rw [if_neg hb0] at hok
  by_cases hp0 : (b.take k).length = 0
  · unfold Name.scan
    rw [if_pos hp0]
  have hKb : (b.take k).length ≤ b.length := by rw [List.length_take]; omega
  cases hraw : scanRaw b (scanFuel b b) b none 0 b.length with
  | none => rw [hraw] at hok; exact absurd hok (by simp)
  | some r =>
    cases r with
    | error e => rw [hraw] at hok; exact absurd hok (by simp)
    | ok st =>
      have hsim := scanRaw_take_sim b k (scanFuel b b) 0 none 0 b.length
        ((b.take k).length) st (by omega) (Or.inl ⟨rfl, rfl⟩)
        (by rw [List.drop_zero]; exact hraw)
      rw [List.drop_zero] at hsim
      have hne : scanRaw (b.take k) (scanFuel (b.take k) (b.take k)) (b.take k) none 0
          (b.take k).length ≠ none := by
        apply scanRaw_enough (b.take k) ((b.take k).length) le_rfl _ _ _ _ _ le_rfl
        have hexp : ((b.take k).length + 1) * ((b.take k).length + 1) =
            (b.take k).length * ((b.take k).length + 1) + ((b.take k).length + 1) := by ring
        simp only [scanFuel, Nat.max_self]
        omega
      cases hrawP : scanRaw (b.take k) (scanFuel (b.take k) (b.take k)) (b.take k) none 0
          (b.take k).length with
      | none => exact absurd hrawP hne
      | some rP =>
        have hfle : scanFuel (b.take k) (b.take k) ≤ scanFuel b b := by
          simp only [scanFuel, Nat.max_self]
          exact Nat.mul_le_mul (by omega) (by omega)
        have hmono := scanRaw_mono (b.take k) (scanFuel (b.take k) (b.take k)) (scanFuel b b)
          (b.take k) none 0 ((b.take k).length) rP hfle hrawP
        rcases hsim with ⟨st', hst'⟩ | heof
        · exfalso
          apply hfail
          have hrP : rP = Except.ok st' := by
            rw [hmono] at hst'
            injection hst'
          have hbounds := scanRaw_ok_bounds (b.take k) (b.take k)
            (scanFuel (b.take k) (b.take k)) (b.take k) none 0 ((b.take k).length) st'
            (by omega) (fun _ => rfl) (fun r hr => Option.noConfusion hr)
            (by rw [hrawP, hrP])
          refine ⟨⟨(b.take k).take (endIdx st'.1 st'.2), b.take k⟩, ?_⟩
          unfold Name.scan
          rw [if_neg hp0, hrawP, hrP]
          obtain ⟨rp', pos'⟩ := st'
          simp only
          rw [if_pos hbounds.2]
        · have hrP : rP = Except.error Error.UnexpectedEOF := by
            rw [hmono] at heof
            injection heof
          unfold Name.scan
          rw [if_neg hp0, hrawP, hrP]

/-- Witness for `c3_truncation_eof`: truncating the valid name
`[2,120,120,0]` to its first two bytes makes the label claim more
bytes than remain, and the scan of the prefix fails with
`UnexpectedEOF`. -/
theorem c3_truncation_eof_witness :
    Name.scan (List.take 2 [2, 120, 120, 0]) (List.take 2 [2, 120, 120, 0]) =
      some (Except.error Error.UnexpectedEOF) :=
  c3_truncation_eof [2, 120, 120, 0] 2 ⟨[2, 120, 120, 0], [2, 120, 120, 0]⟩ rfl
    (by
      rintro ⟨m, hm⟩
      have h2 : (some (Except.error Error.UnexpectedEOF) : Option (Except Error Name)) =
          some (Except.ok m) := hm
      injection h2 with h3
      exact Except.noConfusion h3)

/-- C2: for every byte buffer `b`, the scanning loop of
`scan(b, b)` halts within `(|b| + 1)²` iterations: with that much
fuel `scanRaw` never runs out, because `largest_pos` strictly
decreases on every accepted pointer hop and the cursor strictly
advances between hops. -/
theorem c2_scan_terminates (b : List Nat) :
    scanRaw b (scanFuel b b) b none 0 b.length ≠ none := by
  apply scanRaw_enough b (max b.length b.length) (le_max_left _ _) _ _ _ _ _ (le_max_left _ _)
  have h : (max b.length b.length + 1) * (max b.length b.length + 1) =
      max b.length b.length * (max b.length b.length + 1) + (max b.length b.length + 1) := by
    ring
  simp only [scanFuel, Nat.max_self] at h ⊢
  omega

/-- C9 amended: expansion of a validated `Name` is idempotent (it is
a pure recomputation from the `labels`/`original` pair), and for a
validated name whose `labels` window contains no compression pointer
the driven byte sequence equals the bytes of the textual rendering —
the sequence already contains the separator bytes, so its length
equals the rendering's length (not the rendering's length minus the
separator count). -/
theorem c9_amended (data original : List Nat) (n : Name)
    (hscan : Name.scan data original = some (Except.ok n))
    (hplain : plainValid n.labels = true) :
    bytesFull n = bytesFull n ∧ ∃ s, bytesFull n = some s ∧ displayB n = some s := by
  refine ⟨rfl, ?_⟩
  obtain ⟨labels, o⟩ := n
  have hplain' : plainValid labels = true := hplain
  cases hlab : labels with
  | nil =>
    rw [hlab] at hplain'
    rw [plainValid] at hplain'
    exact absurd hplain' (by decide)
  | cons b rest =>
    subst hlab
    by_cases hb0 : b = 0
    · subst hb0
      have hrest : rest = [] := by
        rw [plainValid] at hplain'
        simpa using hplain'
      subst hrest
      refine ⟨[], ?_, ?_⟩
      · have hbytes : Name.bytes ⟨[0], o⟩ = some ⟨o, [], []⟩ := by
          simp [Name.bytes]
        have hdrive : driveGo (3 * ([0] : List Nat).length + 2 * o.length + 4)
            ⟨o, [], []⟩ = some [] := by
          rw [driveGo_plain o _ [] [] (Or.inr rfl)
            (by simp only [List.length_nil, List.length_cons]; omega)]
          simp [joinTail]
        unfold bytesFull
        simp only [hbytes]
        exact hdrive
      · unfold displayB
        exact displayGo_zero o [0] 0 _ (by simp) rfl
    · obtain ⟨hland, hble, hutf8, hplain2⟩ := plainValid_cons hb0 hplain'
      refine ⟨rest.take b ++ joinTail (rest.drop b), ?_, ?_⟩
      · have hbytes := bytes_plain o b rest hb0 hland hble
        have hdrive := driveGo_plain o (3 * (b :: rest).length + 2 * o.length + 4)
          (rest.drop b) (rest.take b) (Or.inl hplain2)
          (by
            rw [List.length_take, List.length_drop]
            simp only [List.length_cons]
            omega)
        unfold bytesFull
        simp only [hbytes]
        exact hdrive
      · unfold displayB
        exact displayGo_plain0 o b rest hb0 hland hble hutf8 hplain2 _
          (by simp only [List.length_cons]; omega)

/-- Witness for `c9_amended` on the pointer-free name `xx`. -/
theorem c9_amended_witness :
    bytesFull ⟨[2, 120, 120, 0], [2, 120, 120, 0]⟩ =
        bytesFull ⟨[2, 120, 120, 0], [2, 120, 120, 0]⟩ ∧
      ∃ s, bytesFull ⟨[2, 120, 120, 0], [2, 120, 120, 0]⟩ = some s ∧
        displayB ⟨[2, 120, 120, 0], [2, 120, 120, 0]⟩ = some s :=
  c9_amended [2, 120, 120, 0] [2, 120, 120, 0] ⟨[2, 120, 120, 0], [2, 120, 120, 0]⟩
    rfl (by
      show plainValid [2, 120, 120, 0] = true
      rw [plainValid]
      norm_num
      exact ⟨by decide, by decide, by rw [plainValid]; decide⟩)

/-- C10: a successfully scanned `Name`'s window is a non-empty prefix
of `data`: `1 ≤ byte_len ≤ data.length`, so advancing a message
cursor by `byte_len` stays inside the bytes handed to `scan`. -/
theorem c10_labels_window (data original : List Nat) (n : Name)
    (h : Name.scan data original = some (Except.ok n)) :
    1 ≤ n.byte_len ∧ n.byte_len ≤ data.length := by
  unfold Name.scan at h
  by_cases hd : data.length = 0
  · rw [if_pos hd] at h
    exact absurd h (by simp)
  · rw [if_neg hd] at h
    cases hraw : scanRaw original (scanFuel data original) data none 0 original.length with
    | none => rw [hraw] at h; exact absurd h (by simp)
    | some r =>
      cases r with
      | error e => rw [hraw] at h; exact absurd h (by simp)
      | ok st =>
        rw [hraw] at h
        have hb := scanRaw_ok_bounds original data (scanFuel data original) data none 0
          original.length st (by omega) (fun _ => rfl) (fun r hr => Option.noConfusion hr) hraw
        obtain ⟨rp, pos⟩ := st
        simp only at h
        split at h
        · injection h with h1
          injection h1 with h2
          rw [← h2]
          simp only [Name.byte_len, List.length_take]
          simp only [endIdx] at hb ⊢
          omega
        · exact absurd h (by simp)

/-- Witness for `c10_labels_window` on the root name. -/
theorem c10_labels_window_witness :
    1 ≤ Name.byte_len ⟨[0], [0]⟩ ∧ Name.byte_len ⟨[0], [0]⟩ ≤ ([0] : List Nat).length :=
  c10_labels_window [0] [0] ⟨[0], [0]⟩ rfl

/-- C9 counterexample: for the validated name `yy.xx` of the nested
test buffer, the driven byte sequence is `[121,121,46,120,120]` and
the rendering's bytes are the same list: the sequence already
contains the separator byte 46, so the sequence's length plus its
separator count (5 + 1) does not equal the rendering's length (5). -/
theorem c9_counterexample :
    Name.scan (nestedBuf.drop 4) nestedBuf =
      some (Except.ok ⟨[2, 121, 121, 192, 0], nestedBuf⟩) ∧
    bytesFull ⟨[2, 121, 121, 192, 0], nestedBuf⟩ = some [121, 121, 46, 120, 120] ∧
    displayB ⟨[2, 121, 121, 192, 0], nestedBuf⟩ = some [121, 121, 46, 120, 120] ∧
    ([121, 121, 46, 120, 120] : List Nat).length +
      ([121, 121, 46, 120, 120] : List Nat).count 46 ≠
      ([121, 121, 46, 120, 120] : List Nat).length := by
  exact ⟨rfl, rfl, rfl, by decide⟩

end DnsParser
